import Mathlib

/-!
Verification of the error-classification and minimal-suppression-set
construction engine of the typing_copilot repository.

Strings are embedded as `List Char` (Python strings compare and iterate by
code point, exactly as `List Char` with the lexicographic order does).
Python `set`/`frozenset` values are embedded as `Finset`, dicts keyed by
insertion order as association lists, and functions that can raise
`AssertionError`/`ValueError` return `Option` (with `none` for the raise).
The module-introspection collaborator `_get_child_module_names_for_module`
(which imports real modules via importlib/pkgutil) is modelled as an explicit
function parameter `children`, following the spec's description of it as an
injected collaborator interface.
-/

/-- The character constants used throughout the embedded code. -/
def dotC : Char := Char.ofNat 46

/-- POSIX `os.sep`, the path separator used by `_get_module_for_error`. -/
def sepC : Char := Char.ofNat 47

def colonC : Char := Char.ofNat 58

def lbrackC : Char := Char.ofNat 91

def rbrackC : Char := Char.ofNat 93

/-- Single-quote character (U+0027). -/
def quoteS : Char := Char.ofNat 39

/-- Double-quote character (U+0022). -/
def quoteD : Char := Char.ofNat 34

/-- Convenience: the `List Char` underlying a Lean string literal. -/
def chars (s : String) : List Char := s.data

/-- Module names are Python strings, embedded as `List Char`. -/
abbrev ModuleName := List Char

/-- `MypyErrorSetting` from error_tracker.py: a `(flag_name, value)` pair. -/
abbrev MypyErrorSetting := List Char × Bool

/- ### Python `str.split(".")` and `".".join(...)` -/

/-- Prepend a character to the first piece of a split result. -/
def consHead (c : Char) : List (List Char) → List (List Char)
  | [] => [[c]]
  | h :: t => (c :: h) :: t

/-- Embedding of Python `s.split(".")`: split a string at every dot.
`"".split(".") == [""]` and `"a..b".split(".") == ["a", "", "b"]`. -/
def splitOnDot : List Char → List (List Char)
  | [] => [[]]
  | c :: rest => if c = dotC then [] :: splitOnDot rest else consHead c (splitOnDot rest)

/-- Embedding of Python `".".join(pieces)`. -/
def joinDots : List (List Char) → List Char
  | [] => []
  | [x] => x
  | x :: y :: t => x ++ dotC :: joinDots (y :: t)

theorem consHead_ne_nil (c : Char) (L : List (List Char)) : consHead c L ≠ [] := by
  cases L <;> simp [consHead]

theorem splitOnDot_cons_dot (rest : List Char) :
    splitOnDot (dotC :: rest) = [] :: splitOnDot rest := by
  simp [splitOnDot]

theorem splitOnDot_cons_ne {c : Char} (rest : List Char) (h : c ≠ dotC) :
    splitOnDot (c :: rest) = consHead c (splitOnDot rest) := by
  simp [splitOnDot, h]

theorem splitOnDot_ne_nil (m : List Char) : splitOnDot m ≠ [] := by
  cases m with
  | nil => simp [splitOnDot]
  | cons c rest =>
    by_cases h : c = dotC <;> simp [splitOnDot, h, consHead_ne_nil]

theorem joinDots_cons_of_ne_nil (x : List Char) {L : List (List Char)} (h : L ≠ []) :
    joinDots (x :: L) = x ++ dotC :: joinDots L := by
  cases L with
  | nil => exact absurd rfl h
  | cons y t => rfl

theorem joinDots_consHead (c : Char) {L : List (List Char)} (h : L ≠ []) :
    joinDots (consHead c L) = c :: joinDots L := by
  cases L with
  | nil => exact absurd rfl h
  | cons y t =>
    cases t with
    | nil => rfl
    | cons z t2 => simp [consHead, joinDots]

/-- `".".join(m.split("."))` recovers `m`. -/
theorem joinDots_splitOnDot (m : List Char) : joinDots (splitOnDot m) = m := by
  induction m with
  | nil => rfl
  | cons c rest ih =>
    by_cases h : c = dotC
    · rw [splitOnDot, if_pos h,
        joinDots_cons_of_ne_nil _ (splitOnDot_ne_nil rest), ih, h]
      rfl
    · rw [splitOnDot, if_neg h, joinDots_consHead c (splitOnDot_ne_nil rest), ih]

/-- Every piece of `m.split(".")` is dot-free. -/
theorem splitOnDot_pieces_dot_free {m p : List Char} (hp : p ∈ splitOnDot m) :
    dotC ∉ p := by
  induction m generalizing p with
  | nil =>
    simp only [splitOnDot, List.mem_singleton] at hp
    subst hp
    simp
  | cons c rest ih =>
    by_cases h : c = dotC
    · subst h
      rw [splitOnDot_cons_dot] at hp
      rcases List.mem_cons.mp hp with rfl | hp2
      · simp
      · exact ih hp2
    · rw [splitOnDot_cons_ne _ h] at hp
      rcases hL : splitOnDot rest with _ | ⟨hd, tl⟩
      · exact absurd hL (splitOnDot_ne_nil rest)
      · rw [hL] at hp
        simp only [consHead, List.mem_cons] at hp
        rcases hp with rfl | hp
        · intro hmem
          rcases List.mem_cons.mp hmem with h1 | h1
          · exact h h1.symm
          · exact ih (by rw [hL]; exact List.mem_cons_self hd tl) h1
        · exact ih (by rw [hL]; exact List.mem_cons_of_mem hd hp)

theorem splitOnDot_length (m : List Char) :
    (splitOnDot m).length = m.count dotC + 1 := by
  induction m with
  | nil => simp [splitOnDot]
  | cons c rest ih =>
    by_cases h : c = dotC
    · subst h
      rw [splitOnDot, if_pos rfl]
      simp [ih, List.count_cons]
    · rw [splitOnDot, if_neg h]
      rcases hL : splitOnDot rest with _ | ⟨hd, tl⟩
      · exact absurd hL (splitOnDot_ne_nil rest)
      · rw [hL] at ih
        simp only [consHead, List.length_cons, List.count_cons]
        simp only [List.length_cons] at ih
        have : (rest.count dotC) + 1 = tl.length + 1 := ih.symm
        simp [List.count_cons, h, ← this]

/-- Splitting a take/drop decomposition of a joined list around an interior
separator position. -/
theorem joinDots_take_drop (L : List (List Char)) (j : Nat) (h1 : 1 ≤ j)
    (h2 : j < L.length) :
    joinDots L = joinDots (L.take j) ++ dotC :: joinDots (L.drop j) := by
  induction L generalizing j with
  | nil => simp at h2
  | cons x t ih =>
    match j, h1 with
    | 1, _ =>
      have ht : t ≠ [] := by
        intro h
        subst h
        simp at h2
      simp only [List.take, List.drop]
      rw [joinDots_cons_of_ne_nil x ht]
      rfl
    | (k + 2), _ =>
      have hk : k + 1 < t.length := by
        simp only [List.length_cons] at h2
        omega
      have ht : t ≠ [] := by
        intro h
        subst h
        simp at hk
      have htake : t.take (k + 1) ≠ [] := by
        intro h
        have := congrArg List.length h
        simp only [List.length_take, List.length_nil] at this
        omega
      rw [joinDots_cons_of_ne_nil x ht, ih (k + 1) (by omega) hk]
      simp only [List.take, List.drop]
      rw [joinDots_cons_of_ne_nil x htake]
      simp

/-- If `m = c ++ "." ++ r` then `c` is recoverable as a join of a proper
prefix of `m.split(".")`. -/
theorem exists_take_of_append_dot (c r : List Char) :
    ∃ j, 1 ≤ j ∧ j < (splitOnDot (c ++ dotC :: r)).length ∧
      joinDots ((splitOnDot (c ++ dotC :: r)).take j) = c := by
  induction c with
  | nil =>
    refine ⟨1, le_refl 1, ?_, ?_⟩
    · rw [List.nil_append, splitOnDot_cons_dot]
      have hpos : 0 < (splitOnDot r).length :=
        List.length_pos.mpr (splitOnDot_ne_nil r)
      simp only [List.length_cons]
      omega
    · rw [List.nil_append, splitOnDot_cons_dot]
      rfl
  | cons a c' ih =>
    rcases ih with ⟨j, hj1, hj2, hj3⟩
    by_cases h : a = dotC
    · subst h
      refine ⟨j + 1, by omega, ?_, ?_⟩
      · rw [List.cons_append, splitOnDot_cons_dot, List.length_cons]
        omega
      · rw [List.cons_append, splitOnDot_cons_dot, List.take_succ_cons]
        have hne : (splitOnDot (c' ++ dotC :: r)).take j ≠ [] := by
          intro hnil
          have := congrArg List.length hnil
          simp only [List.length_take, List.length_nil] at this
          omega
        rw [joinDots_cons_of_ne_nil _ hne, hj3]
        rfl
    · rcases hL : splitOnDot (c' ++ dotC :: r) with _ | ⟨hd, tl⟩
      · exact absurd hL (splitOnDot_ne_nil _)
      · rw [hL] at hj2 hj3
        refine ⟨j, hj1, ?_, ?_⟩
        · rw [List.cons_append, splitOnDot_cons_ne _ h, hL]
          simp only [consHead, List.length_cons]
          simpa using hj2
        · rw [List.cons_append, splitOnDot_cons_ne _ h, hL]
          simp only [consHead]
          match j, hj1 with
          | 1, _ =>
            simp only [List.take_succ_cons, List.take_zero] at hj3 ⊢
            simp only [joinDots] at hj3 ⊢
            rw [hj3]
          | (k + 2), _ =>
            have htl : tl.take (k + 1) ≠ [] := by
              intro hnil
              have := congrArg List.length hnil
              simp only [List.length_cons] at hj2
              simp only [List.length_take, List.length_nil] at this
              omega
            simp only [List.take_succ_cons] at hj3 ⊢
            rw [joinDots_cons_of_ne_nil _ htl] at hj3 ⊢
            rw [← hj3]
            simp

/- ### Strict ancestors, as enumerated by `_find_minimum_covering_modules` -/

/-- The proper dotted prefixes of `m` tried by the inner loop of
`_find_minimum_covering_modules`: `".".join(module_path[:num_components])`
for `num_components in range(1, len(module_path))`. -/
def strictAncestors (m : ModuleName) : List ModuleName :=
  (List.range ((splitOnDot m).length - 1)).map
    (fun k => joinDots ((splitOnDot m).take (k + 1)))

/-- The claim-side notion: `a` is a strict dot-prefix ancestor of `m`. -/
def isDotAncestor (a m : ModuleName) : Prop := ∃ r, m = a ++ dotC :: r

instance (a m : ModuleName) : Decidable (isDotAncestor a m) :=
  decidable_of_iff (a ++ [dotC] <+: m) (by
    constructor
    · rintro ⟨r, hr⟩
      exact ⟨r, by rw [← hr]; simp⟩
    · rintro ⟨r, hr⟩
      exact ⟨r, by rw [hr]; simp⟩)

/-- The ancestor strings enumerated by the source's inner loop are exactly
the strict dot-prefix ancestors. -/
theorem mem_strictAncestors {a m : ModuleName} :
    a ∈ strictAncestors m ↔ isDotAncestor a m := by
  constructor
  · intro h
    simp only [strictAncestors, List.mem_map, List.mem_range] at h
    rcases h with ⟨k, hk, rfl⟩
    have hlen : 1 < (splitOnDot m).length := by omega
    have h2 : k + 1 < (splitOnDot m).length := by omega
    refine ⟨joinDots ((splitOnDot m).drop (k + 1)), ?_⟩
    conv_lhs => rw [← joinDots_splitOnDot m]
    exact joinDots_take_drop _ (k + 1) (by omega) h2
  · rintro ⟨r, rfl⟩
    rcases exists_take_of_append_dot a r with ⟨j, hj1, hj2, hj3⟩
    simp only [strictAncestors, List.mem_map, List.mem_range]
    refine ⟨j - 1, by omega, ?_⟩
    have : j - 1 + 1 = j := by omega
    rw [this, hj3]

/-- A strict prefix of a string sorts strictly before the string itself:
the fact `_find_minimum_covering_modules` exploits about `sorted`. -/
theorem lt_append_dot_cons (a : List Char) (x : Char) (r : List Char) :
    a < a ++ x :: r := by
  induction a with
  | nil => exact List.Lex.nil
  | cons c t ih => exact List.Lex.cons ih

theorem lt_of_isDotAncestor {a m : ModuleName} (h : isDotAncestor a m) : a < m := by
  rcases h with ⟨r, rfl⟩
  exact lt_append_dot_cons a dotC r

theorem not_isDotAncestor_self (m : ModuleName) : ¬ isDotAncestor m m := by
  intro h
  exact absurd (lt_of_isDotAncestor h) (lt_irrefl m)

/- ### Python `sorted` / `list.sort`, embedded as insertion sort -/

/-- Insert `a` into `l`, before the first element `b` with `le a b`. -/
def insertSorted {α : Type} (le : α → α → Bool) (a : α) : List α → List α
  | [] => [a]
  | b :: t => if le a b then a :: b :: t else b :: insertSorted le a t

/-- Embedding of Python `sorted(l, key=identity)` for a total preorder `le`:
a structurally recursive sort (kernel-reducible, unlike mergeSort). -/
def sortBy {α : Type} (le : α → α → Bool) (l : List α) : List α :=
  l.foldr (insertSorted le) []

theorem insertSorted_perm {α : Type} (le : α → α → Bool) (a : α) (l : List α) :
    (insertSorted le a l).Perm (a :: l) := by
  induction l with
  | nil => exact List.Perm.refl _
  | cons b t ih =>
    by_cases h : le a b
    · rw [insertSorted, if_pos h]
    · rw [insertSorted, if_neg h]
      exact ((ih.cons b).trans (List.Perm.swap a b t)).symm.symm

theorem sortBy_perm {α : Type} (le : α → α → Bool) (l : List α) :
    (sortBy le l).Perm l := by
  induction l with
  | nil => exact List.Perm.refl _
  | cons a t ih =>
    exact (insertSorted_perm le a (sortBy le t)).trans (ih.cons a)

theorem insertSorted_sorted {α : Type} {le : α → α → Bool}
    (htrans : ∀ a b c, le a b = true → le b c = true → le a c = true)
    (htot : ∀ a b, le a b = true ∨ le b a = true)
    (a : α) {l : List α} (hl : l.Pairwise (fun x y => le x y = true)) :
    (insertSorted le a l).Pairwise (fun x y => le x y = true) := by
  induction l with
  | nil => simp [insertSorted]
  | cons b t ih =>
    rcases List.pairwise_cons.mp hl with ⟨hb, ht⟩
    by_cases h : le a b
    · rw [insertSorted, if_pos h]
      refine List.pairwise_cons.mpr ⟨?_, hl⟩
      intro x hx
      rcases List.mem_cons.mp hx with rfl | hx
      · exact h
      · exact htrans a b x h (hb x hx)
    · rw [insertSorted, if_neg h]
      refine List.pairwise_cons.mpr ⟨?_, ih ht⟩
      intro x hx
      have hx2 := (insertSorted_perm le a t).mem_iff.mp hx
      rcases List.mem_cons.mp hx2 with rfl | hx2
      · rcases htot x b with h1 | h1
        · exact absurd h1 (by simpa using h)
        · exact h1
      · exact hb x hx2

theorem sortBy_sorted {α : Type} {le : α → α → Bool}
    (htrans : ∀ a b c, le a b = true → le b c = true → le a c = true)
    (htot : ∀ a b, le a b = true ∨ le b a = true)
    (l : List α) : (sortBy le l).Pairwise (fun x y => le x y = true) := by
  induction l with
  | nil => simp [sortBy]
  | cons a t ih => exact insertSorted_sorted htrans htot a ih

/- ### Enumerating a `Finset` of module names in Python `sorted` order -/

/-- Boolean form of the string order used by Python `sorted` on module
names (lexicographic by code point). -/
def pyStrLe (a b : List Char) : Bool := decide (a ≤ b)

theorem pyStrLe_trans : ∀ a b c : List Char,
    pyStrLe a b = true → pyStrLe b c = true → pyStrLe a c = true := by
  intro a b c h1 h2
  simp only [pyStrLe, decide_eq_true_eq] at h1 h2 ⊢
  exact le_trans h1 h2

theorem pyStrLe_total : ∀ a b : List Char,
    pyStrLe a b = true ∨ pyStrLe b a = true := by
  intro a b
  simp only [pyStrLe, decide_eq_true_eq]
  exact le_total a b

theorem pyStrLe_antisymm : ∀ a b : List Char,
    pyStrLe a b = true → pyStrLe b a = true → a = b := by
  intro a b h1 h2
  simp only [pyStrLe, decide_eq_true_eq] at h1 h2
  exact le_antisymm h1 h2

instance : IsAntisymm (List Char) (fun a b => pyStrLe a b = true) :=
  ⟨pyStrLe_antisymm⟩

/-- Python `sorted(s)` for a set `s` of strings, on the multiset level. -/
def msSorted (m : Multiset ModuleName) : List ModuleName :=
  Quotient.lift (fun l => sortBy pyStrLe l)
    (fun l1 l2 h => by
      refine @List.eq_of_perm_of_sorted _ (fun a b => pyStrLe a b = true) _ _ _
        (((sortBy_perm pyStrLe l1).trans h).trans (sortBy_perm pyStrLe l2).symm)
        ?_ ?_
      · exact sortBy_sorted pyStrLe_trans pyStrLe_total l1
      · exact sortBy_sorted pyStrLe_trans pyStrLe_total l2)
    m

theorem msSorted_coe (m : Multiset ModuleName) : (msSorted m : Multiset ModuleName) = m := by
  refine Quotient.inductionOn m ?_
  intro l
  exact Multiset.coe_eq_coe.mpr (sortBy_perm pyStrLe l)

/-- Python `sorted(module_names)` for a frozenset of module names. -/
def finsetSorted (s : Finset ModuleName) : List ModuleName :=
  msSorted s.val

theorem mem_finsetSorted {s : Finset ModuleName} {x : ModuleName} :
    x ∈ finsetSorted s ↔ x ∈ s := by
  have h := msSorted_coe s.val
  constructor
  · intro hx
    have : x ∈ (msSorted s.val : Multiset ModuleName) := by
      simpa using hx
    rw [h] at this
    exact this
  · intro hx
    have : x ∈ (msSorted s.val : Multiset ModuleName) := by
      rw [h]
      exact hx
    simpa using this

theorem finsetSorted_nodup (s : Finset ModuleName) : (finsetSorted s).Nodup := by
  have h := msSorted_coe s.val
  have : Multiset.Nodup (msSorted s.val : Multiset ModuleName) := by
    rw [h]
    exact s.nodup
  simpa using this

theorem msSorted_sorted (m : Multiset ModuleName) :
    (msSorted m).Pairwise (fun x y => pyStrLe x y = true) := by
  refine Quotient.inductionOn m ?_
  intro l
  exact sortBy_sorted pyStrLe_trans pyStrLe_total l

theorem finsetSorted_sorted (s : Finset ModuleName) :
    (finsetSorted s).Pairwise (fun x y => pyStrLe x y = true) :=
  msSorted_sorted s.val

/-- The sorted enumeration is strictly increasing in the string order. -/
theorem finsetSorted_sorted_lt (s : Finset ModuleName) :
    (finsetSorted s).Pairwise (fun x y : ModuleName => x < y) := by
  have h1 := finsetSorted_sorted s
  have h2 : (finsetSorted s).Pairwise (fun x y : ModuleName => x ≠ y) :=
    finsetSorted_nodup s
  refine (h1.and h2).imp ?_
  rintro a b ⟨hle, hne⟩
  exact lt_of_le_of_ne (by simpa [pyStrLe] using hle) hne

/- ### `_find_minimum_covering_modules` from error_tracker.py -/

/-- One iteration of the loop body of `_find_minimum_covering_modules`:
check whether any proper dotted prefix of `m` is already an accepted
prefix; if so skip `m`, otherwise accept it. -/
def coveredStep (acc : Finset ModuleName) (m : ModuleName) : Finset ModuleName :=
  if (strictAncestors m).any (fun a => decide (a ∈ acc)) then acc else insert m acc

/-- Embedding of `_find_minimum_covering_modules`: walk the module names in
`sorted` order, accepting each name none of whose proper dotted prefixes
was accepted before. -/
def _find_minimum_covering_modules (s : Finset ModuleName) : Finset ModuleName :=
  (finsetSorted s).foldl coveredStep ∅

theorem coveredStep_eq_of_covered {acc : Finset ModuleName} {m : ModuleName}
    (h : ∃ a, isDotAncestor a m ∧ a ∈ acc) : coveredStep acc m = acc := by
  rcases h with ⟨a, ha, hacc⟩
  rw [coveredStep, if_pos]
  rw [List.any_eq_true]
  exact ⟨a, mem_strictAncestors.mpr ha, by simpa using hacc⟩

theorem coveredStep_eq_insert {acc : Finset ModuleName} {m : ModuleName}
    (h : ¬ ∃ a, isDotAncestor a m ∧ a ∈ acc) : coveredStep acc m = insert m acc := by
  rw [coveredStep, if_neg]
  rw [List.any_eq_true]
  rintro ⟨a, ha, hacc⟩
  exact h ⟨a, mem_strictAncestors.mp ha, by simpa using hacc⟩

theorem subset_coveredStep (acc : Finset ModuleName) (m : ModuleName) :
    acc ⊆ coveredStep acc m := by
  by_cases h : ∃ a, isDotAncestor a m ∧ a ∈ acc
  · rw [coveredStep_eq_of_covered h]
  · rw [coveredStep_eq_insert h]
    exact Finset.subset_insert m acc

theorem subset_foldl_coveredStep (l : List ModuleName) (acc : Finset ModuleName) :
    acc ⊆ l.foldl coveredStep acc := by
  induction l generalizing acc with
  | nil => exact subset_rfl
  | cons m t ih =>
    rw [List.foldl_cons]
    exact (subset_coveredStep acc m).trans (ih (coveredStep acc m))

theorem mem_foldl_coveredStep {l : List ModuleName} {acc : Finset ModuleName}
    {x : ModuleName} (hx : x ∈ l.foldl coveredStep acc) : x ∈ acc ∨ x ∈ l := by
  induction l generalizing acc with
  | nil => exact Or.inl hx
  | cons m t ih =>
    rw [List.foldl_cons] at hx
    rcases ih hx with h | h
    · by_cases hc : ∃ a, isDotAncestor a m ∧ a ∈ acc
      · rw [coveredStep_eq_of_covered hc] at h
        exact Or.inl h
      · rw [coveredStep_eq_insert hc] at h
        rcases Finset.mem_insert.mp h with rfl | h2
        · exact Or.inr (List.mem_cons_self x t)
        · exact Or.inl h2
    · exact Or.inr (List.mem_cons_of_mem m h)

theorem foldl_coveredStep_covers {l : List ModuleName} {acc : Finset ModuleName} :
    ∀ m ∈ l, ∃ c ∈ l.foldl coveredStep acc, c = m ∨ isDotAncestor c m := by
  induction l generalizing acc with
  | nil => intro m hm; simp at hm
  | cons m0 t ih =>
    intro m hm
    rw [List.foldl_cons]
    rcases List.mem_cons.mp hm with rfl | hm2
    · by_cases hc : ∃ a, isDotAncestor a m ∧ a ∈ acc
      · rcases hc with ⟨a, ha, hacc⟩
        refine ⟨a, ?_, Or.inr ha⟩
        have : a ∈ coveredStep acc m := subset_coveredStep acc m hacc
        exact subset_foldl_coveredStep t _ this
      · refine ⟨m, ?_, Or.inl rfl⟩
        rw [coveredStep_eq_insert hc]
        exact subset_foldl_coveredStep t _ (Finset.mem_insert_self m acc)
    · exact ih m hm2

theorem foldl_coveredStep_minimal {l : List ModuleName} {acc : Finset ModuleName}
    (hsort : l.Pairwise (fun x y : ModuleName => x < y))
    (h1 : ∀ x ∈ acc, ∀ y ∈ acc, ¬ isDotAncestor x y)
    (h2 : ∀ x ∈ acc, ∀ y ∈ l, ¬ isDotAncestor y x) :
    ∀ x ∈ l.foldl coveredStep acc, ∀ y ∈ l.foldl coveredStep acc,
      ¬ isDotAncestor x y := by
  induction l generalizing acc with
  | nil => exact h1
  | cons m0 t ih =>
    rcases List.pairwise_cons.mp hsort with ⟨hlt, htsort⟩
    rw [List.foldl_cons]
    by_cases hc : ∃ a, isDotAncestor a m0 ∧ a ∈ acc
    · rw [coveredStep_eq_of_covered hc]
      refine ih htsort h1 ?_
      intro x hx y hy
      exact h2 x hx y (List.mem_cons_of_mem m0 hy)
    · rw [coveredStep_eq_insert hc]
      refine ih htsort ?_ ?_
      · intro x hx y hy him
        rcases Finset.mem_insert.mp hx with hx1 | hx2
        · rcases Finset.mem_insert.mp hy with hy1 | hy2
          · rw [hx1, hy1] at him
            exact not_isDotAncestor_self m0 him
          · rw [hx1] at him
            exact h2 y hy2 m0 (List.mem_cons_self m0 t) him
        · rcases Finset.mem_insert.mp hy with hy1 | hy2
          · rw [hy1] at him
            exact hc ⟨x, him, hx2⟩
          · exact h1 x hx2 y hy2 him
      · intro x hx y hy him
        rcases Finset.mem_insert.mp hx with hx1 | hx2
        · rw [hx1] at him
          have hylt : y < m0 := lt_of_isDotAncestor him
          have hxlt : m0 < y := hlt y hy
          exact absurd hylt (lt_asymm hxlt)
        · exact h2 x hx2 y (List.mem_cons_of_mem m0 hy) him

theorem foldl_coveredStep_all_insert {l : List ModuleName} {acc : Finset ModuleName}
    (h : ∀ m ∈ l, ∀ a, isDotAncestor a m → a ∉ acc ∧ a ∉ l) :
    l.foldl coveredStep acc = acc ∪ l.toFinset := by
  induction l generalizing acc with
  | nil => simp
  | cons m0 t ih =>
    rw [List.foldl_cons]
    have hnc : ¬ ∃ a, isDotAncestor a m0 ∧ a ∈ acc := by
      rintro ⟨a, ha, hacc⟩
      exact (h m0 (List.mem_cons_self m0 t) a ha).1 hacc
    rw [coveredStep_eq_insert hnc]
    rw [ih ?_]
    · rw [List.toFinset_cons, Finset.insert_union, Finset.union_insert]
    · intro m hm a ha
      rcases h m (List.mem_cons_of_mem m0 hm) a ha with ⟨ha1, ha2⟩
      constructor
      · intro hmem
        rcases Finset.mem_insert.mp hmem with rfl | h3
        · exact ha2 (List.mem_cons_self a t)
        · exact ha1 h3
      · intro hmem
        exact ha2 (List.mem_cons_of_mem m0 hmem)

/-- Covering-set reduction returns a subset of its input. -/
theorem minCover_subset (s : Finset ModuleName) :
    _find_minimum_covering_modules s ⊆ s := by
  intro x hx
  rcases mem_foldl_coveredStep hx with h | h
  · simp at h
  · exact mem_finsetSorted.mp h

/-- Every input module is itself in the reduction or has a strict dotted
ancestor there. -/
theorem minCover_covers {s : Finset ModuleName} :
    ∀ m ∈ s, ∃ c ∈ _find_minimum_covering_modules s, c = m ∨ isDotAncestor c m := by
  intro m hm
  exact foldl_coveredStep_covers m (mem_finsetSorted.mpr hm)

/-- No member of the reduction is a strict dotted ancestor of another. -/
theorem minCover_minimal {s : Finset ModuleName} :
    ∀ x ∈ _find_minimum_covering_modules s, ∀ y ∈ _find_minimum_covering_modules s,
      ¬ isDotAncestor x y := by
  refine foldl_coveredStep_minimal (finsetSorted_sorted_lt s) ?_ ?_
  · intro x hx
    simp at hx
  · intro x hx
    simp at hx

/-- Applying the covering-set reduction twice is the same as applying it once. -/
theorem minCover_idem (s : Finset ModuleName) :
    _find_minimum_covering_modules (_find_minimum_covering_modules s) =
      _find_minimum_covering_modules s := by
  rw [_find_minimum_covering_modules]
  rw [foldl_coveredStep_all_insert ?_]
  · rw [Finset.empty_union]
    apply Finset.ext
    intro x
    rw [List.mem_toFinset, mem_finsetSorted]
  · intro m hm a ha
    have hm2 := mem_finsetSorted.mp hm
    refine ⟨by simp, ?_⟩
    intro hmem
    exact minCover_minimal a (mem_finsetSorted.mp hmem) m hm2 ha

/- ### `_consider_replacing_child_modules_with_parent` from error_tracker.py -/

/-- Python `"." in module_name`. -/
def hasDotM (m : ModuleName) : Prop := dotC ∈ m

instance (m : ModuleName) : Decidable (hasDotM m) := by
  unfold hasDotM
  infer_instance

/-- Python `module_name.rsplit(".", 1)[0]`: everything before the last dot
(meaningful when the name contains a dot). -/
def parentOf (m : ModuleName) : ModuleName := joinDots ((splitOnDot m).dropLast)

theorem count_joinDots {M : List (List Char)} (hdf : ∀ p ∈ M, dotC ∉ p)
    (hne : M ≠ []) : (joinDots M).count dotC = M.length - 1 := by
  induction M with
  | nil => exact absurd rfl hne
  | cons x t ih =>
    cases t with
    | nil =>
      simp only [joinDots, List.length_cons, List.length_nil]
      exact List.count_eq_zero.mpr (hdf x (List.mem_cons_self x []))
    | cons y t2 =>
      rw [joinDots, List.count_append]
      have h1 : (joinDots (y :: t2)).count dotC = (y :: t2).length - 1 :=
        ih (fun p hp => hdf p (List.mem_cons_of_mem x hp)) (by simp)
      have h2 : x.count dotC = 0 :=
        List.count_eq_zero.mpr (hdf x (List.mem_cons_self x (y :: t2)))
      simp only [List.count_cons, h1, h2, List.length_cons]
      simp

theorem count_dot_parentOf {m : ModuleName} (h : hasDotM m) :
    (parentOf m).count dotC + 1 = m.count dotC := by
  have hL : (splitOnDot m).length = m.count dotC + 1 := splitOnDot_length m
  have hcnt : 0 < m.count dotC := List.count_pos_iff.mpr h
  have hdf : ∀ p ∈ (splitOnDot m).dropLast, dotC ∉ p := fun p hp =>
    splitOnDot_pieces_dot_free ((List.dropLast_sublist (splitOnDot m)).mem hp)
  have hne : (splitOnDot m).dropLast ≠ [] := by
    intro hx
    have := congrArg List.length hx
    simp only [List.length_dropLast, List.length_nil] at this
    omega
  rw [parentOf, count_joinDots hdf hne, List.length_dropLast, hL]
  omega

/-- The local `parentless_module_names` of the source. -/
def parentlessOf (s : Finset ModuleName) : Finset ModuleName :=
  s.filter (fun m => ¬ hasDotM m)

/-- The dotted module names, i.e. the keys of `module_name_to_parent`. -/
def dottedOf (s : Finset ModuleName) : Finset ModuleName :=
  s.filter (fun m => hasDotM m)

/-- The local `unseen_child_modules_for_parent[p]` after the removal loop:
the children of `p` (per the introspection collaborator) that are not
present in the input as direct children of `p`. -/
def unseenChildren (children : ModuleName → Finset ModuleName)
    (s : Finset ModuleName) (p : ModuleName) : Finset ModuleName :=
  children p \ (dottedOf s).filter (fun m => parentOf m = p)

/-- One pass of `_consider_replacing_child_modules_with_parent` (the body
before the convergence check): keep parentless names, emit each parent all
of whose children were seen, and keep each dotted name whose parent still
has unseen children. -/
def collapsePass (children : ModuleName → Finset ModuleName)
    (s : Finset ModuleName) : Finset ModuleName :=
  parentlessOf s ∪
    ((dottedOf s).image parentOf).filter (fun p => unseenChildren children s p = ∅) ∪
    (dottedOf s).filter (fun m => ¬ unseenChildren children s (parentOf m) = ∅)

/-- The termination measure: total number of dots across the set. -/
def sumDots (s : Finset ModuleName) : Nat := ∑ m ∈ s, m.count dotC

theorem sum_union_le_nat (A B : Finset ModuleName) (f : ModuleName → Nat) :
    ∑ x ∈ A ∪ B, f x ≤ ∑ x ∈ A, f x + ∑ x ∈ B, f x := by
  have h := @Finset.sum_union_inter ModuleName Nat A B f _ _
  omega

/-- If one pass changes the set, the total dot count strictly drops: the
underlying reason the source's recursion terminates. -/
theorem collapsePass_lt_of_ne {children : ModuleName → Finset ModuleName}
    {s : Finset ModuleName} (h : collapsePass children s ≠ s) :
    sumDots (collapsePass children s) < sumDots s := by
  classical
  set D := dottedOf s with hD
  set par := D.image parentOf with hpar
  set compl := par.filter (fun p => unseenChildren children s p = ∅) with hcompl
  set kept := D.filter
    (fun m => ¬ unseenChildren children s (parentOf m) = ∅) with hkept
  by_cases hc : compl = ∅
  · exfalso
    apply h
    have hkeptD : kept = D := by
      rw [hkept]
      apply Finset.filter_true_of_mem
      intro m hm
      intro hz
      have hp : parentOf m ∈ compl := by
        rw [hcompl]
        exact Finset.mem_filter.mpr ⟨Finset.mem_image_of_mem parentOf hm, hz⟩
      rw [hc] at hp
      simp at hp
    rw [collapsePass, ← hD, ← hpar, ← hcompl, ← hkept, hc, hkeptD]
    rw [Finset.union_empty]
    rw [parentlessOf, hD, dottedOf, Finset.union_comm]
    exact Finset.filter_union_filter_neg_eq _ s
  · have hcne : compl.Nonempty := Finset.nonempty_iff_ne_empty.mpr hc
    -- fiber sums over parents
    have hmaps : ∀ m ∈ D, parentOf m ∈ par := fun m hm =>
      Finset.mem_image_of_mem parentOf hm
    have hfib : ∑ p ∈ par, ∑ m ∈ D.filter (fun m => parentOf m = p), m.count dotC
        = ∑ m ∈ D, m.count dotC :=
      Finset.sum_fiberwise_of_maps_to hmaps _
    -- the complete/incomplete split of the parent sum
    have hsplit : ∑ p ∈ compl, ∑ m ∈ D.filter (fun m => parentOf m = p), m.count dotC
        + ∑ p ∈ par.filter (fun p => ¬ unseenChildren children s p = ∅),
            ∑ m ∈ D.filter (fun m => parentOf m = p), m.count dotC
        = ∑ p ∈ par, ∑ m ∈ D.filter (fun m => parentOf m = p), m.count dotC := by
      rw [hcompl]
      exact Finset.sum_filter_add_sum_filter_not par _ _
    -- the kept sum equals the incomplete-parents fiber sum
    have hkmaps : ∀ m ∈ kept,
        parentOf m ∈ par.filter (fun p => ¬ unseenChildren children s p = ∅) := by
      intro m hm
      rcases Finset.mem_filter.mp hm with ⟨hmD, hmne⟩
      exact Finset.mem_filter.mpr ⟨hmaps m hmD, hmne⟩
    have hkfib : ∑ p ∈ par.filter (fun p => ¬ unseenChildren children s p = ∅),
        ∑ m ∈ kept.filter (fun m => parentOf m = p), m.count dotC
        = ∑ m ∈ kept, m.count dotC :=
      Finset.sum_fiberwise_of_maps_to hkmaps _
    have hkfibers : ∀ p ∈ par.filter (fun p => ¬ unseenChildren children s p = ∅),
        kept.filter (fun m => parentOf m = p) = D.filter (fun m => parentOf m = p) := by
      intro p hp
      rcases Finset.mem_filter.mp hp with ⟨hppar, hpne⟩
      apply Finset.ext
      intro m
      constructor
      · intro hm
        rcases Finset.mem_filter.mp hm with ⟨hmk, hmp⟩
        rw [hkept] at hmk
        exact Finset.mem_filter.mpr ⟨(Finset.mem_filter.mp hmk).1, hmp⟩
      · intro hm
        rcases Finset.mem_filter.mp hm with ⟨hmD, hmp⟩
        refine Finset.mem_filter.mpr ⟨?_, hmp⟩
        rw [hkept]
        refine Finset.mem_filter.mpr ⟨hmD, ?_⟩
        rw [hmp]
        exact hpne
    have hkept_sum : ∑ m ∈ kept, m.count dotC
        = ∑ p ∈ par.filter (fun p => ¬ unseenChildren children s p = ∅),
            ∑ m ∈ D.filter (fun m => parentOf m = p), m.count dotC := by
      rw [← hkfib]
      exact (Finset.sum_congr rfl (fun p hp => by rw [hkfibers p hp])).symm
    -- parentless names carry no dots
    have hP0 : ∑ m ∈ parentlessOf s, m.count dotC = 0 := by
      apply Finset.sum_eq_zero
      intro m hm
      rcases Finset.mem_filter.mp hm with ⟨_, hnd⟩
      exact List.count_eq_zero.mpr hnd
    -- each complete parent costs strictly fewer dots than its fiber
    have hstrict : ∑ p ∈ compl, p.count dotC
        < ∑ p ∈ compl, ∑ m ∈ D.filter (fun m => parentOf m = p), m.count dotC := by
      refine Finset.sum_lt_sum_of_nonempty hcne ?_
      intro p hp
      have hppar : p ∈ par := (Finset.mem_filter.mp hp).1
      rcases Finset.mem_image.mp hppar with ⟨m0, hm0D, hm0p⟩
      have hm0fib : m0 ∈ D.filter (fun m => parentOf m = p) :=
        Finset.mem_filter.mpr ⟨hm0D, hm0p⟩
      have hle : m0.count dotC ≤ ∑ m ∈ D.filter (fun m => parentOf m = p), m.count dotC :=
        Finset.single_le_sum (fun i _ => Nat.zero_le _) hm0fib
      have hm0dot : hasDotM m0 := (Finset.mem_filter.mp hm0D).2
      have hcount : (parentOf m0).count dotC + 1 = m0.count dotC :=
        count_dot_parentOf hm0dot
      rw [hm0p] at hcount
      omega
    -- assemble
    have hsD : sumDots s = ∑ m ∈ parentlessOf s, m.count dotC + ∑ m ∈ D, m.count dotC := by
      have h0 := Finset.sum_filter_add_sum_filter_not s
        (fun m => hasDotM m) (fun m => m.count dotC)
      rw [sumDots, hD, dottedOf, parentlessOf]
      omega
    have hbound : sumDots (collapsePass children s)
        ≤ ∑ m ∈ parentlessOf s, m.count dotC + ∑ p ∈ compl, p.count dotC
          + ∑ m ∈ kept, m.count dotC := by
      rw [sumDots, collapsePass, ← hD, ← hpar, ← hcompl, ← hkept]
      calc ∑ x ∈ parentlessOf s ∪ compl ∪ kept, x.count dotC
          ≤ ∑ x ∈ parentlessOf s ∪ compl, x.count dotC + ∑ x ∈ kept, x.count dotC :=
            sum_union_le_nat _ _ _
        _ ≤ ∑ x ∈ parentlessOf s, x.count dotC + ∑ x ∈ compl, x.count dotC
              + ∑ x ∈ kept, x.count dotC := by
            have := sum_union_le_nat (parentlessOf s) compl (fun x => x.count dotC)
            omega
    omega

/-- Fuelled driver for the run-to-convergence recursion of
`_consider_replacing_child_modules_with_parent`. The fuel is only a
structural-recursion device: `collapsePass_lt_of_ne` shows the measure
`sumDots` strictly drops on every recursive call, so the fuel chosen in
`_consider_replacing_child_modules_with_parent` below never runs out, and
the function provably satisfies the source's defining recursion
(`collapse_unfold`). -/
def collapseAux (children : ModuleName → Finset ModuleName) :
    Nat → Finset ModuleName → Finset ModuleName
  | 0, s => s
  | n + 1, s =>
    if collapsePass children s = s then s
    else collapseAux children n (collapsePass children s)

/-- Embedding of `_consider_replacing_child_modules_with_parent`: repeat
`collapsePass` until a fixed point is reached. -/
def _consider_replacing_child_modules_with_parent
    (children : ModuleName → Finset ModuleName) (s : Finset ModuleName) :
    Finset ModuleName :=
  collapseAux children (sumDots s + 1) s

theorem collapseAux_fuel_irrelevant {children : ModuleName → Finset ModuleName} :
    ∀ f g : Nat, ∀ s : Finset ModuleName, sumDots s < f → sumDots s < g →
      collapseAux children f s = collapseAux children g s := by
  intro f
  induction f with
  | zero =>
    intro g s hf
    omega
  | succ f ih =>
    intro g s hf hg
    match g, hg with
    | g + 1, _ =>
      rw [collapseAux, collapseAux]
      by_cases hp : collapsePass children s = s
      · rw [if_pos hp, if_pos hp]
      · rw [if_neg hp, if_neg hp]
        have hlt := collapsePass_lt_of_ne hp
        exact ih g (collapsePass children s) (by omega) (by omega)

/-- The source's defining recursion, proved about the fuelled embedding:
return the input when one pass leaves it unchanged, otherwise recurse on
the pass's output. -/
theorem collapse_unfold (children : ModuleName → Finset ModuleName)
    (s : Finset ModuleName) :
    _consider_replacing_child_modules_with_parent children s =
      if collapsePass children s = s then s
      else _consider_replacing_child_modules_with_parent children
        (collapsePass children s) := by
  rw [_consider_replacing_child_modules_with_parent, collapseAux]
  by_cases hp : collapsePass children s = s
  · rw [if_pos hp, if_pos hp]
  · rw [if_neg hp, if_neg hp]
    have hlt := collapsePass_lt_of_ne hp
    rw [_consider_replacing_child_modules_with_parent]
    exact collapseAux_fuel_irrelevant _ _ _ (by omega) (by omega)

theorem collapse_fixpoint_aux (children : ModuleName → Finset ModuleName) :
    ∀ n : Nat, ∀ s : Finset ModuleName, sumDots s ≤ n →
      collapsePass children (_consider_replacing_child_modules_with_parent children s)
        = _consider_replacing_child_modules_with_parent children s := by
  intro n
  induction n with
  | zero =>
    intro s hs
    rw [collapse_unfold]
    by_cases hp : collapsePass children s = s
    · rw [if_pos hp, hp]
    · have := collapsePass_lt_of_ne hp
      omega
  | succ n ih =>
    intro s hs
    rw [collapse_unfold]
    by_cases hp : collapsePass children s = s
    · rw [if_pos hp, hp]
    · rw [if_neg hp]
      have := collapsePass_lt_of_ne hp
      exact ih (collapsePass children s) (by omega)

/-- The output of the children-collapse reduction is a fixed point of a
single pass. -/
theorem collapse_fixpoint (children : ModuleName → Finset ModuleName)
    (s : Finset ModuleName) :
    collapsePass children (_consider_replacing_child_modules_with_parent children s)
      = _consider_replacing_child_modules_with_parent children s :=
  collapse_fixpoint_aux children (sumDots s) s (le_refl _)

/-- Re-applying the children-collapse reduction to its own output returns
the identical set. -/
theorem collapse_idem (children : ModuleName → Finset ModuleName)
    (s : Finset ModuleName) :
    _consider_replacing_child_modules_with_parent children
        (_consider_replacing_child_modules_with_parent children s)
      = _consider_replacing_child_modules_with_parent children s := by
  rw [collapse_unfold, if_pos (collapse_fixpoint children s)]

theorem mem_collapsePass_of_parentless {children : ModuleName → Finset ModuleName}
    {s : Finset ModuleName} {m : ModuleName} (hm : m ∈ s) (hd : ¬ hasDotM m) :
    m ∈ collapsePass children s := by
  rw [collapsePass]
  refine Finset.mem_union_left _ (Finset.mem_union_left _ ?_)
  exact Finset.mem_filter.mpr ⟨hm, hd⟩

theorem mem_collapse_of_parentless_aux (children : ModuleName → Finset ModuleName) :
    ∀ n : Nat, ∀ s : Finset ModuleName, sumDots s ≤ n → ∀ m ∈ s, ¬ hasDotM m →
      m ∈ _consider_replacing_child_modules_with_parent children s := by
  intro n
  induction n with
  | zero =>
    intro s hs m hm hd
    rw [collapse_unfold]
    by_cases hp : collapsePass children s = s
    · rw [if_pos hp]
      exact hm
    · have := collapsePass_lt_of_ne hp
      omega
  | succ n ih =>
    intro s hs m hm hd
    rw [collapse_unfold]
    by_cases hp : collapsePass children s = s
    · rw [if_pos hp]
      exact hm
    · rw [if_neg hp]
      have := collapsePass_lt_of_ne hp
      exact ih (collapsePass children s) (by omega) m
        (mem_collapsePass_of_parentless hm hd) hd

/-- Top-level (dot-free) module names always survive the collapse
reduction. -/
theorem mem_collapse_of_parentless {children : ModuleName → Finset ModuleName}
    {s : Finset ModuleName} {m : ModuleName} (hm : m ∈ s) (hd : ¬ hasDotM m) :
    m ∈ _consider_replacing_child_modules_with_parent children s :=
  mem_collapse_of_parentless_aux children (sumDots s) s (le_refl _) m hm hd

/- ### validation.py -/

/-- `string.ascii_letters + string.digits + "_" + "."` as a character pool
(the source builds a `frozenset` of it, so only membership matters). -/
def expected_chars : List Char :=
  chars "abcdefghijklmnopqrstuvwxyzABCDEFGHIJKLMNOPQRSTUVWXYZ0123456789_" ++ [dotC]

/-- Embedding of `validate_module_name`; `true` means the function returns
normally, `false` that it raises `AssertionError`. -/
def validate_module_name (m : ModuleName) : Bool :=
  m.all (fun c => expected_chars.contains c) &&
    !([dotC].isPrefixOf m) && !([dotC].isSuffixOf m)

/- ### mypy_runner.py -/

/-- Structured diagnostic record (the `MypyError` dataclass). Python's
`int` for the line number is modelled as `Nat`; the diagnostics the parser
builds always carry non-negative line numbers. -/
structure MypyError where
  file_path : List Char
  line_number : Nat
  error_code : List Char
  message : List Char
deriving DecidableEq

/-- The ASCII whitespace characters stripped by Python `str.strip()`
(space, tab, linefeed, carriage return, vertical tab, form feed). -/
def wsChars : List Char :=
  [Char.ofNat 32, Char.ofNat 9, Char.ofNat 10, Char.ofNat 13,
   Char.ofNat 11, Char.ofNat 12]

def isWsC (c : Char) : Bool := wsChars.contains c

/-- Python `str.rstrip()`. -/
def stripRightWs (l : List Char) : List Char := (l.reverse.dropWhile isWsC).reverse

/-- Python `str.strip()`. -/
def pyStrip (l : List Char) : List Char := stripRightWs (l.dropWhile isWsC)

/-- Python `str.strip(c)` for a single character `c`: remove every leading
and trailing occurrence of `c`. -/
def stripCharBoth (c : Char) (l : List Char) : List Char :=
  ((l.dropWhile (fun x => x = c)).reverse.dropWhile (fun x => x = c)).reverse

/-- Split at the first occurrence of `c`; `none` when `c` is absent (so a
Python `split(c, 1)` unpacking into two names would raise). -/
def splitFirst (c : Char) (l : List Char) : Option (List Char × List Char) :=
  if c ∈ l then
    some (l.takeWhile (fun x => !(x = c)), (l.dropWhile (fun x => !(x = c))).drop 1)
  else none

/-- Split at the last occurrence of `c` (Python `rsplit(c, 1)`). -/
def rsplitLast (c : Char) (l : List Char) : Option (List Char × List Char) :=
  match splitFirst c l.reverse with
  | none => none
  | some (a, b) => some (b.reverse, a.reverse)

def isDigitC (c : Char) : Bool :=
  decide (Char.ofNat 48 ≤ c) && decide (c ≤ Char.ofNat 57)

def digitsToNat (l : List Char) : Nat :=
  l.foldl (fun n c => n * 10 + (c.toNat - 48)) 0

/-- Python `int(s)`, modelled on non-negative decimal digit strings (the
only shape mypy line numbers take); any other input raises `ValueError`,
i.e. returns `none`. -/
def parseNat (l : List Char) : Option Nat :=
  if !l.isEmpty && l.all isDigitC then some (digitsToNat l) else none

/-- Embedding of `MypyError.from_mypy_output_line`. The outer `Option` is
the exception channel (`line.split(":", 2)` unpacking failure or `int`
failure); the inner `Option` is the source's `None` for discarded
note lines. -/
def MypyError.from_mypy_output_line (line : List Char) : Option (Option MypyError) :=
  match splitFirst colonC line with
  | none => none
  | some (fpRaw, rest1) =>
    match splitFirst colonC rest1 with
    | none => none
    | some (lnRaw, rest2) =>
      match parseNat (pyStrip lnRaw) with
      | none => none
      | some ln =>
        let fp := pyStrip fpRaw
        let rest := pyStrip rest2
        if (chars "note:").isPrefixOf rest then some none
        else if lbrackC ∈ rest then
          match rsplitLast lbrackC rest with
          | none => none
          | some (msgRaw, codeRaw) =>
            some (some ⟨fp, ln,
              stripRightWs (stripCharBoth rbrackC (pyStrip codeRaw)),
              pyStrip msgRaw⟩)
        else some (some ⟨fp, ln, [], rest⟩)

/- ### error_tracker.py: classification tables and classifier -/

def _remaining_error_setting : MypyErrorSetting := (chars "check_untyped_defs", false)

def _warn_unused_ignores_error_setting : MypyErrorSetting :=
  (chars "warn_unused_ignores", false)

/-- The message substring `"error: unused 'type: ignore' comment"`. -/
def unusedIgnoreMsg : List Char :=
  chars "error: unused " ++ [quoteS] ++ chars "type: ignore" ++ [quoteS] ++
    chars " comment"

/-- The classification table, an ordered association list of
code → ordered (message-substring → setting) sub-tables, mirroring the
insertion order of the source's dict literal. -/
def _code_and_message_to_error_setting :
    List (List Char × List (List Char × MypyErrorSetting)) :=
  [(chars "misc",
     [(chars "error: Untyped decorator", (chars "disallow_untyped_decorators", false)),
      ([], _remaining_error_setting)]),
   (chars "no-untyped-def",
     [(chars "error: Function is missing a type annotation for one or more arguments",
        (chars "disallow_incomplete_defs", false)),
      (chars "error: Function is missing a type annotation",
        (chars "disallow_untyped_defs", false)),
      ([], (chars "disallow_incomplete_defs", false))]),
   (chars "no-untyped-call",
     [([], (chars "disallow_untyped_calls", false))]),
   ([], [(unusedIgnoreMsg, _warn_unused_ignores_error_setting)])]

def _settings_that_require_other_settings :
    List (MypyErrorSetting × List MypyErrorSetting) :=
  [((chars "disallow_incomplete_defs", false), [(chars "disallow_untyped_defs", false)])]

/-- Python `pat in message` (substring containment). -/
def containsSub (hay pat : List Char) : Bool :=
  if pat.isPrefixOf hay then true
  else
    match hay with
    | [] => false
    | _ :: t => containsSub t pat

/-- Embedding of `_get_error_setting_for_error`. `none` is the
`AssertionError` raised when a known code's sub-table has no matching
message substring. -/
def _get_error_setting_for_error (error : MypyError) : Option MypyErrorSetting :=
  match _code_and_message_to_error_setting.lookup error.error_code with
  | none => some _remaining_error_setting
  | some tbl =>
    match tbl.find? (fun p => containsSub error.message p.1) with
    | none => none
    | some p => some p.2

/- ### error_tracker.py: import-error message patterns -/

/-- The character class `[a-zA-Z0-9_\.]` of the module-name capture groups. -/
def isNameChar (c : Char) : Bool :=
  (chars "abcdefghijklmnopqrstuvwxyzABCDEFGHIJKLMNOPQRSTUVWXYZ0123456789").contains c
    || c = Char.ofNat 95 || c = dotC

def isQuoteChar (c : Char) : Bool := c = quoteD || c = quoteS

/-- `re.match` of `_module_missing_type_hint_pattern`, returning the capture
group. The greedy group ranges over a character class disjoint from the
quote characters that must follow it, so taking the maximal run is exactly
the regex engine's behaviour; `re.match` only anchors at the start, so
trailing text after the literal tail is allowed. -/
def _module_missing_type_hint_pattern (msg : List Char) : Option ModuleName :=
  let pre := chars "error: Skipping analyzing "
  if pre.isPrefixOf msg then
    match msg.drop pre.length with
    | [] => none
    | q :: r2 =>
      if isQuoteChar q then
        let name := r2.takeWhile isNameChar
        let r3 := r2.drop name.length
        if name.isEmpty then none
        else
          match r3 with
          | [] => none
          | q2 :: r4 =>
            if isQuoteChar q2 &&
                (chars ": found module but no type hints or library stubs").isPrefixOf r4
            then some name else none
      else none
  else none

/-- `re.match` of `_module_missing_implementation_or_library_stub_pattern`,
returning the capture group. -/
def _module_missing_implementation_or_library_stub_pattern
    (msg : List Char) : Option ModuleName :=
  let pre := chars "error: Cannot find implementation or library stub for module named "
  if pre.isPrefixOf msg then
    match msg.drop pre.length with
    | [] => none
    | q :: r2 =>
      if isQuoteChar q then
        let name := r2.takeWhile isNameChar
        let r3 := r2.drop name.length
        if name.isEmpty then none
        else
          match r3 with
          | [] => none
          | q2 :: _ => if isQuoteChar q2 then some name else none
      else none
  else none

/- ### error_tracker.py: public API -/

/-- Embedding of `get_3rd_party_modules_missing_type_hints`. `none` is the
`AssertionError` for an unrecognized `[import]`-coded message. The
`click.echo` warning on the second pattern branch is a logging side effect
with no influence on the result and is not modelled. -/
def get_3rd_party_modules_missing_type_hints (errors : List MypyError) :
    Option (Finset ModuleName) :=
  match (errors.filter (fun e => decide (e.error_code = chars "import"))).foldlM
      (fun (acc : Finset ModuleName) e =>
        match _module_missing_type_hint_pattern e.message with
        | some name => some (insert name acc)
        | none =>
          match _module_missing_implementation_or_library_stub_pattern e.message with
          | some name => some (insert name acc)
          | none => none) ∅ with
  | none => none
  | some module_names => some (_find_minimum_covering_modules module_names)

/-- The known source-file extensions of `_get_module_for_error`. The source
stores them in a `set` literal and iterates it; CPython's iteration order
for a set of strings is hash-seed dependent, so the embedding takes the
iteration order as an explicit argument, with this list (the literal's
textual order) as the reference order. -/
def known_python_extensions : List (List Char) :=
  [chars ".py", chars ".pyo", chars ".pyx", chars ".pyc"]

/-- The extension-stripping loop of `_get_module_for_error`: each extension
in iteration order is stripped from the current (already possibly
shortened) name if it is a suffix of it. -/
def stripExtensions (extOrder : List (List Char)) (f : List Char) : List Char :=
  extOrder.foldl
    (fun acc ext =>
      if ext.isSuffixOf acc then acc.take (acc.length - ext.length) else acc) f

def initSuffix : List Char := chars "__init__"

/-- Embedding of `_get_module_for_error` (with the extension-set iteration
order explicit). `none` covers both `AssertionError` sites: a leftover dot
in the stem, and `validate_module_name` failure. -/
def _get_module_for_error (extOrder : List (List Char)) (error : MypyError) :
    Option ModuleName :=
  let f1 := stripExtensions extOrder error.file_path
  if dotC ∈ f1 then none
  else
    let f2 := if initSuffix.isSuffixOf f1 then f1.take (f1.length - initSuffix.length)
      else f1
    let m := (stripCharBoth sepC f2).map (fun c => if c = sepC then dotC else c)
    if validate_module_name m then some m else none

/-- The sort order Python uses for `error_settings.sort()`: lexicographic
tuple comparison, strings by code point then `False < True`. -/
def settingLe (a b : MypyErrorSetting) : Bool :=
  decide (a.1 < b.1) || (decide (a.1 = b.1) && (!a.2 || b.2))

/-- The per-setting module aggregate `needed_setting_to_modules`, as a
function from setting to module set (dict key order is tracked separately
by `keys`). -/
def neededModules (pairs : List (MypyErrorSetting × ModuleName))
    (st : MypyErrorSetting) : Finset ModuleName :=
  ((pairs.filter (fun p => decide (p.1 = st))).map Prod.snd).toFinset

/-- The dependency-expansion loop of `get_1st_party_modules_and_suppressions`:
for each table entry whose dependent setting is a dict key, union the
dependent's module set into each depended setting that is itself a dict
key. -/
def expandDependencies (keys : List MypyErrorSetting)
    (needed : MypyErrorSetting → Finset ModuleName) :
    MypyErrorSetting → Finset ModuleName :=
  _settings_that_require_other_settings.foldl
    (fun f entry =>
      if entry.1 ∈ keys then
        entry.2.foldl
          (fun g d =>
            if d ∈ keys then
              (fun st => if st = d then g st ∪ g entry.1 else g st)
            else g) f
      else f)
    needed

/-- The assembly stage of `get_1st_party_modules_and_suppressions` once all
diagnostics have classified successfully: reduce each needed setting's
module set, then inversely map each module to its sorted settings list.
The returned mapping is total, with `[]` for modules outside the dict. -/
def builderAssemble (children : ModuleName → Finset ModuleName)
    (pairs : List (MypyErrorSetting × ModuleName)) :
    ModuleName → List MypyErrorSetting :=
  let keys := (pairs.map Prod.fst).eraseDups
  let needed := expandDependencies keys (neededModules pairs)
  fun m => sortBy settingLe (keys.filter (fun st =>
    decide (m ∈ _consider_replacing_child_modules_with_parent children
      (_find_minimum_covering_modules (needed st)))))

/-- Embedding of `get_1st_party_modules_and_suppressions`. `none` is an
`AssertionError` escaping from the classifier or the module-name
derivation; otherwise the result is the module → sorted settings list
mapping (as a total function; only reduced-cover modules get a non-empty
list). -/
def get_1st_party_modules_and_suppressions
    (children : ModuleName → Finset ModuleName) (extOrder : List (List Char))
    (errors : List MypyError) : Option (ModuleName → List MypyErrorSetting) :=
  match (errors.filter (fun e => !decide (e.error_code = chars "import"))).mapM
      (fun e => (_get_error_setting_for_error e).bind (fun st =>
        (_get_module_for_error extOrder e).map (fun m => (st, m)))) with
  | none => none
  | some pairs => some (builderAssemble children pairs)

/-- Observation helper: the settings list the Builder's result assigns to
one module (`none` when the Builder raised). -/
def settingsFor (result : Option (ModuleName → List MypyErrorSetting))
    (m : ModuleName) : Option (List MypyErrorSetting) :=
  result.map (fun g => g m)

/- ### Order facts about `settingLe` -/

theorem settingLe_trans : ∀ a b c : MypyErrorSetting,
    settingLe a b = true → settingLe b c = true → settingLe a c = true := by
  intro a b c h1 h2
  simp only [settingLe, Bool.or_eq_true, Bool.and_eq_true, decide_eq_true_eq] at h1 h2 ⊢
  rcases h1 with h1 | ⟨h1, h1b⟩ <;> rcases h2 with h2 | ⟨h2, h2b⟩
  · exact Or.inl (lt_trans h1 h2)
  · exact Or.inl (lt_of_lt_of_eq h1 h2)
  · exact Or.inl (lt_of_eq_of_lt h1 h2)
  · refine Or.inr ⟨h1.trans h2, ?_⟩
    cases ha : a.2 <;> cases hb : b.2 <;> cases hc : c.2 <;> simp_all

theorem settingLe_total : ∀ a b : MypyErrorSetting,
    settingLe a b = true ∨ settingLe b a = true := by
  intro a b
  simp only [settingLe, Bool.or_eq_true, Bool.and_eq_true, decide_eq_true_eq]
  rcases lt_trichotomy a.1 b.1 with h | h | h
  · exact Or.inl (Or.inl h)
  · cases ha : a.2 <;> cases hb : b.2
    · exact Or.inl (Or.inr ⟨h, by simp⟩)
    · exact Or.inl (Or.inr ⟨h, by simp⟩)
    · exact Or.inr (Or.inr ⟨h.symm, by simp⟩)
    · exact Or.inl (Or.inr ⟨h, by simp⟩)
  · exact Or.inr (Or.inl h)

/- ### Classifier catch-all machinery -/

/-- The empty string is a substring of every string (Python `"" in s`). -/
theorem containsSub_nil (hay : List Char) : containsSub hay [] = true := by
  cases hay <;> simp [containsSub, List.isPrefixOf]

/-- A sub-table containing an always-matching pattern classifies every
message. -/
theorem classifier_some_of_catchall {fp : List Char} {ln : Nat}
    {code msg : List Char} {tbl : List (List Char × MypyErrorSetting)}
    (hl : _code_and_message_to_error_setting.lookup code = some tbl)
    (hcatch : ∃ p ∈ tbl, p.1 = []) :
    (_get_error_setting_for_error ⟨fp, ln, code, msg⟩).isSome = true := by
  rw [_get_error_setting_for_error]
  simp only [hl]
  rcases hcatch with ⟨p, hp, hp1⟩
  have hs : (tbl.find? (fun q => containsSub msg q.1)).isSome = true :=
    List.find?_isSome.mpr ⟨p, hp, by rw [hp1]; exact containsSub_nil msg⟩
  obtain ⟨q, hq⟩ := Option.isSome_iff_exists.mp hs
  rw [hq]
  rfl

/- ### Parser support lemmas -/

theorem takeWhile_ne_append {c : Char} {a : List Char} (h : c ∉ a) (b : List Char) :
    (a ++ c :: b).takeWhile (fun x => !(x = c)) = a := by
  induction a with
  | nil => simp [List.takeWhile_cons]
  | cons x t ih =>
    have hx : x ≠ c := by
      intro hxc
      exact h (hxc ▸ List.mem_cons_self x t)
    rw [List.cons_append, List.takeWhile_cons, if_pos (by simp [hx])]
    rw [ih (fun hm => h (List.mem_cons_of_mem x hm))]

theorem dropWhile_ne_append {c : Char} {a : List Char} (h : c ∉ a) (b : List Char) :
    (a ++ c :: b).dropWhile (fun x => !(x = c)) = c :: b := by
  induction a with
  | nil => simp [List.dropWhile_cons]
  | cons x t ih =>
    have hx : x ≠ c := by
      intro hxc
      exact h (hxc ▸ List.mem_cons_self x t)
    rw [List.cons_append, List.dropWhile_cons, if_pos (by simp [hx])]
    exact ih (fun hm => h (List.mem_cons_of_mem x hm))

theorem splitFirst_append {c : Char} {a : List Char} (h : c ∉ a) (b : List Char) :
    splitFirst c (a ++ c :: b) = some (a, b) := by
  rw [splitFirst, if_pos (by simp)]
  rw [takeWhile_ne_append h, dropWhile_ne_append h]
  rfl

theorem pyStrip_subset {x : Char} {l : List Char} (h : x ∈ pyStrip l) : x ∈ l := by
  rw [pyStrip, stripRightWs, List.mem_reverse] at h
  have h2 := (List.dropWhile_sublist _).mem h
  rw [List.mem_reverse] at h2
  exact (List.dropWhile_sublist _).mem h2

theorem dropWhile_ws_append_lbrack (msg z : List Char) :
    (msg ++ lbrackC :: z).dropWhile isWsC = msg.dropWhile isWsC ++ lbrackC :: z := by
  induction msg with
  | nil =>
    simp only [List.nil_append, List.dropWhile_cons, List.dropWhile_nil]
    rw [if_neg (by simp [isWsC, wsChars, lbrackC])]
  | cons x t ih =>
    rw [List.cons_append, List.dropWhile_cons, List.dropWhile_cons]
    by_cases hx : isWsC x = true
    · rw [if_pos hx, if_pos hx, ih]
    · rw [if_neg hx, if_neg hx, List.cons_append]

theorem stripRightWs_append_singleton (y : List Char) (c : Char)
    (h : isWsC c = false) : stripRightWs (y ++ [c]) = y ++ [c] := by
  rw [stripRightWs, List.reverse_append]
  simp only [List.reverse_cons, List.reverse_nil, List.nil_append, List.singleton_append]
  rw [List.dropWhile_cons, if_neg (by simp [h])]
  simp

theorem dropWhile_of_head_false {p : Char → Bool} {l : List Char}
    (h : ∀ x ∈ l.head?, p x = false) : l.dropWhile p = l := by
  cases l with
  | nil => rfl
  | cons x t =>
    rw [List.dropWhile_cons, if_neg]
    simp only [List.head?] at h
    simp [h x rfl]

theorem stripRightWs_of_all_not_ws {l : List Char}
    (h : ∀ c ∈ l, isWsC c = false) : stripRightWs l = l := by
  rw [stripRightWs, dropWhile_of_head_false, List.reverse_reverse]
  intro x hx
  apply h
  rw [← List.mem_reverse]
  exact List.mem_of_mem_head? hx

theorem pyStrip_of_all_not_ws {l : List Char}
    (h : ∀ c ∈ l, isWsC c = false) : pyStrip l = l := by
  rw [pyStrip, dropWhile_of_head_false, stripRightWs_of_all_not_ws h]
  intro x hx
  exact h x (List.mem_of_mem_head? hx)

theorem dropWhile_idem (p : Char → Bool) (l : List Char) :
    (l.dropWhile p).dropWhile p = l.dropWhile p := by
  induction l with
  | nil => rfl
  | cons x t ih =>
    rw [List.dropWhile_cons]
    by_cases hx : p x = true
    · rw [if_pos hx]
      exact ih
    · rw [if_neg hx, List.dropWhile_cons, if_neg hx]

theorem stripCharBoth_code {code : List Char} (hne : code ≠ [])
    (hnb : rbrackC ∉ code) : stripCharBoth rbrackC (code ++ [rbrackC]) = code := by
  rw [stripCharBoth]
  have h1 : (code ++ [rbrackC]).dropWhile (fun x => x = rbrackC) = code ++ [rbrackC] := by
    cases code with
    | nil => exact absurd rfl hne
    | cons c0 t =>
      rw [List.cons_append, List.dropWhile_cons, if_neg]
      simp only [decide_eq_true_eq]
      intro h
      exact hnb (h ▸ List.mem_cons_self c0 t)
  rw [h1, List.reverse_append]
  simp only [List.reverse_cons, List.reverse_nil, List.nil_append, List.singleton_append]
  rw [List.dropWhile_cons, if_pos (by simp)]
  have h2 : code.reverse.dropWhile (fun x => x = rbrackC) = code.reverse := by
    apply dropWhile_of_head_false
    intro x hx
    simp only [decide_eq_false_iff_not]
    intro h
    apply hnb
    rw [← List.mem_reverse]
    exact h ▸ List.mem_of_mem_head? hx
  rw [h2, List.reverse_reverse]

theorem from_mypy_output_line_bracket (msg code : List Char)
    (hne : code ≠ [])
    (hcc : ∀ c ∈ code, c ≠ lbrackC ∧ c ≠ rbrackC ∧ isWsC c = false)
    (hnote : (chars "note:").isPrefixOf
        (pyStrip (msg ++ lbrackC :: (code ++ [rbrackC]))) = false) :
    MypyError.from_mypy_output_line
      (chars "src/app.py" ++ colonC :: (chars "10" ++ colonC ::
        (msg ++ lbrackC :: (code ++ [rbrackC]))))
    = some (some ⟨chars "src/app.py", 10, code, pyStrip msg⟩) := by
  have h1 : splitFirst colonC (chars "src/app.py" ++ colonC :: (chars "10" ++ colonC ::
      (msg ++ lbrackC :: (code ++ [rbrackC]))))
      = some (chars "src/app.py", chars "10" ++ colonC ::
          (msg ++ lbrackC :: (code ++ [rbrackC]))) :=
    splitFirst_append (by decide) _
  have h2 : splitFirst colonC (chars "10" ++ colonC :: (msg ++ lbrackC :: (code ++ [rbrackC])))
      = some (chars "10", msg ++ lbrackC :: (code ++ [rbrackC])) :=
    splitFirst_append (by decide) _
  have h3 : parseNat (pyStrip (chars "10")) = some 10 := rfl
  have hrest : pyStrip (msg ++ lbrackC :: (code ++ [rbrackC]))
      = msg.dropWhile isWsC ++ lbrackC :: (code ++ [rbrackC]) := by
    rw [pyStrip, dropWhile_ws_append_lbrack]
    have hsh : msg.dropWhile isWsC ++ lbrackC :: (code ++ [rbrackC])
        = (msg.dropWhile isWsC ++ lbrackC :: code) ++ [rbrackC] := by
      simp
    rw [hsh, stripRightWs_append_singleton _ _ (by decide)]
  have hmem : lbrackC ∈ pyStrip (msg ++ lbrackC :: (code ++ [rbrackC])) := by
    rw [hrest]
    exact List.mem_append_right _ (List.mem_cons_self _ _)
  have hrev : (pyStrip (msg ++ lbrackC :: (code ++ [rbrackC]))).reverse
      = (rbrackC :: code.reverse) ++ lbrackC :: (msg.dropWhile isWsC).reverse := by
    rw [hrest]
    simp
  have hnotin : lbrackC ∉ rbrackC :: code.reverse := by
    intro hm
    rcases List.mem_cons.mp hm with h | h
    · exact absurd h.symm (by decide)
    · rw [List.mem_reverse] at h
      exact (hcc lbrackC h).1 rfl
  have hrsplit : rsplitLast lbrackC (pyStrip (msg ++ lbrackC :: (code ++ [rbrackC])))
      = some (msg.dropWhile isWsC, code ++ [rbrackC]) := by
    rw [rsplitLast, hrev, splitFirst_append hnotin]
    simp
  have hcode : stripRightWs (stripCharBoth rbrackC (pyStrip (code ++ [rbrackC]))) = code := by
    have hall : ∀ c ∈ code ++ [rbrackC], isWsC c = false := by
      intro c hc
      rcases List.mem_append.mp hc with h | h
      · exact (hcc c h).2.2
      · rcases List.mem_singleton.mp h with rfl
        decide
    rw [pyStrip_of_all_not_ws hall, stripCharBoth_code hne (fun hm => (hcc rbrackC hm).2.1 rfl)]
    exact stripRightWs_of_all_not_ws (fun c hc => (hcc c hc).2.2)
  have hmsg : pyStrip (msg.dropWhile isWsC) = pyStrip msg := by
    rw [pyStrip, dropWhile_idem, pyStrip]
  rw [MypyError.from_mypy_output_line, h1]
  dsimp only
  rw [h2]
  dsimp only
  rw [h3]
  dsimp only
  rw [if_neg (by simp [hnote]), if_pos hmem, hrsplit]
  dsimp only
  rw [hcode, hmsg]
  rfl

theorem from_mypy_output_line_no_bracket (tail : List Char)
    (hlb : lbrackC ∉ tail)
    (hnote : (chars "note:").isPrefixOf (pyStrip tail) = false) :
    MypyError.from_mypy_output_line
      (chars "src/app.py" ++ colonC :: (chars "10" ++ colonC :: tail))
    = some (some ⟨chars "src/app.py", 10, [], pyStrip tail⟩) := by
  have h1 : splitFirst colonC (chars "src/app.py" ++ colonC :: (chars "10" ++ colonC :: tail))
      = some (chars "src/app.py", chars "10" ++ colonC :: tail) :=
    splitFirst_append (by decide) _
  have h2 : splitFirst colonC (chars "10" ++ colonC :: tail) = some (chars "10", tail) :=
    splitFirst_append (by decide) _
  have h3 : parseNat (pyStrip (chars "10")) = some 10 := rfl
  have h4 : lbrackC ∉ pyStrip tail := fun hm => hlb (pyStrip_subset hm)
  rw [MypyError.from_mypy_output_line, h1]
  dsimp only
  rw [h2]
  dsimp only
  rw [h3]
  dsimp only
  rw [if_neg (by simp [hnote]), if_neg (by simpa using h4)]
  rfl

/- ### Builder sortedness -/

theorem builder_result_sorted {children : ModuleName → Finset ModuleName}
    {extOrder : List (List Char)} {errors : List MypyError}
    {g : ModuleName → List MypyErrorSetting}
    (h : get_1st_party_modules_and_suppressions children extOrder errors = some g)
    (m : ModuleName) :
    (g m).Pairwise (fun a b => settingLe a b = true) := by
  rw [get_1st_party_modules_and_suppressions] at h
  rcases hX : (errors.filter (fun e => !decide (e.error_code = chars "import"))).mapM
      (fun e => (_get_error_setting_for_error e).bind (fun st =>
        (_get_module_for_error extOrder e).map (fun mm => (st, mm)))) with _ | pairs
  · rw [hX] at h
    exact absurd h (by simp)
  · rw [hX] at h
    have hg : g = builderAssemble children pairs := (Option.some.inj h).symm
    rw [hg]
    simp only [builderAssemble]
    exact sortBy_sorted settingLe_trans settingLe_total _

/- ### Module-name validation characterization -/

theorem singleton_isPrefixOf_iff (c : Char) (m : List Char) :
    [c].isPrefixOf m = true ↔ m.head? = some c := by
  cases m with
  | nil => simp [List.isPrefixOf]
  | cons x t =>
    simp only [List.isPrefixOf, List.head?, Option.some.injEq]
    constructor
    · intro h
      have := (Bool.and_eq_true _ _).mp h
      exact (beq_iff_eq.mp this.1).symm
    · intro h
      subst h
      simp [List.isPrefixOf]

theorem singleton_isSuffixOf_iff (c : Char) (m : List Char) :
    [c].isSuffixOf m = true ↔ m.getLast? = some c := by
  rw [List.isSuffixOf]
  have h1 : ([c] : List Char).reverse = [c] := rfl
  rw [h1, singleton_isPrefixOf_iff, List.head?_reverse]

/-- The module-name well-formedness predicate as the claim states it:
characters from the allowed pool, and every dot-separated component
non-empty. -/
def claimWellFormedModuleName (m : ModuleName) : Prop :=
  (∀ c ∈ m, c ∈ expected_chars) ∧ ∀ p ∈ splitOnDot m, p ≠ []

instance (m : ModuleName) : Decidable (claimWellFormedModuleName m) := by
  unfold claimWellFormedModuleName
  infer_instance

/- ### The claims -/

/-- C1 (counterexample): a single `no-untyped-def` diagnostic classified to
`("disallow_incomplete_defs", False)` does NOT get
`("disallow_untyped_defs", False)` added for its module: the dependency
union in `get_1st_party_modules_and_suppressions` only fires when the
depended setting is itself already a key of the aggregate. -/
theorem dependency_expansion_counterexample :
    settingsFor (get_1st_party_modules_and_suppressions (fun _ => ∅)
        known_python_extensions
        [⟨chars "m.py", 1, chars "no-untyped-def",
          chars "Function is missing a type annotation for one or more arguments"⟩])
      (chars "m")
    = some [(chars "disallow_incomplete_defs", false)]
    ∧ ((chars "disallow_untyped_defs", false) : MypyErrorSetting)
        ∉ [((chars "disallow_incomplete_defs", false) : MypyErrorSetting)] :=
  ⟨by decide, by decide⟩

/-- C1 (amended): the dependent setting's module set is unioned into a
setting it depends on only when the depended setting is itself present in
the aggregate. With a lone incomplete-defs diagnostic in module `m` the
output for `m` is exactly `[("disallow_incomplete_defs", False)]`; when a
second diagnostic also makes `("disallow_untyped_defs", False)` needed (in
module `q`), the dependency union fires and module `p` receives both
settings while `q` receives only `("disallow_untyped_defs", False)`. -/
theorem dependency_expansion_amended :
    settingsFor (get_1st_party_modules_and_suppressions (fun _ => ∅)
        known_python_extensions
        [⟨chars "m.py", 1, chars "no-untyped-def",
          chars "Function is missing a type annotation for one or more arguments"⟩])
      (chars "m")
    = some [(chars "disallow_incomplete_defs", false)]
    ∧ settingsFor (get_1st_party_modules_and_suppressions (fun _ => ∅)
        known_python_extensions
        [⟨chars "p.py", 1, chars "no-untyped-def",
          chars "error: Function is missing a type annotation for one or more arguments"⟩,
         ⟨chars "q.py", 2, chars "no-untyped-def",
          chars "error: Function is missing a type annotation"⟩])
      (chars "p")
    = some [(chars "disallow_incomplete_defs", false),
            (chars "disallow_untyped_defs", false)]
    ∧ settingsFor (get_1st_party_modules_and_suppressions (fun _ => ∅)
        known_python_extensions
        [⟨chars "p.py", 1, chars "no-untyped-def",
          chars "error: Function is missing a type annotation for one or more arguments"⟩,
         ⟨chars "q.py", 2, chars "no-untyped-def",
          chars "error: Function is missing a type annotation"⟩])
      (chars "q")
    = some [(chars "disallow_untyped_defs", false)] :=
  ⟨by decide, by decide, by decide⟩

/-- C2 (counterexample): the empty-string error code IS a key of the
classification table, yet a codeless diagnostic whose message matches no
substring of that sub-table makes `_get_error_setting_for_error` raise
(`none`): the empty-code sub-table has no empty-string catch-all. -/
theorem classifier_totality_counterexample :
    _get_error_setting_for_error ⟨chars "f.py", 1, [], chars "hello"⟩ = none
    ∧ ([] : List Char) ∈ _code_and_message_to_error_setting.map Prod.fst :=
  ⟨by decide, by decide⟩

/-- C2 (amended): for every diagnostic whose error code is a NON-EMPTY key
of the classification table, and for every message string,
`_get_error_setting_for_error` returns a Setting and never raises, because
each such code's sub-table contains an empty-string catch-all key. -/
theorem classifier_total_on_nonempty_codes :
    ∀ code ∈ _code_and_message_to_error_setting.map Prod.fst, code ≠ [] →
      ∀ (fp : List Char) (ln : Nat) (msg : List Char),
        (_get_error_setting_for_error ⟨fp, ln, code, msg⟩).isSome = true := by
  intro code hcode hne fp ln msg
  simp only [_code_and_message_to_error_setting, List.map_cons, List.map_nil,
    List.mem_cons, List.not_mem_nil, or_false] at hcode
  rcases hcode with rfl | rfl | rfl | rfl
  · exact classifier_some_of_catchall rfl ⟨([], _remaining_error_setting), by decide, rfl⟩
  · exact classifier_some_of_catchall rfl
      ⟨([], (chars "disallow_incomplete_defs", false)), by decide, rfl⟩
  · exact classifier_some_of_catchall rfl
      ⟨([], (chars "disallow_untyped_calls", false)), by decide, rfl⟩
  · exact absurd rfl hne

/-- C2 (witness): the amended totality at a concrete known code and
message. -/
theorem classifier_total_witness :
    (_get_error_setting_for_error
      ⟨chars "f.py", 7, chars "misc", chars "whatever"⟩).isSome = true :=
  classifier_total_on_nonempty_codes (chars "misc") (by decide) (by decide)
    (chars "f.py") 7 (chars "whatever")

/-- C3: `_find_minimum_covering_modules` returns a subset of its input in
which every input module is present or strictly covered by a dotted
ancestor, no member is a strict dotted ancestor of another, and the
concrete set `{"a.b", "a.b.c", "a.d"}` reduces to `{"a.b", "a.d"}`. -/
theorem minimum_covering_spec (s : Finset ModuleName)
    (hvalid : ∀ m ∈ s, validate_module_name m = true) :
    _find_minimum_covering_modules s ⊆ s
    ∧ (∀ m ∈ s, ∃ c ∈ _find_minimum_covering_modules s, c = m ∨ isDotAncestor c m)
    ∧ (∀ x ∈ _find_minimum_covering_modules s, ∀ y ∈ _find_minimum_covering_modules s,
        ¬ isDotAncestor x y)
    ∧ _find_minimum_covering_modules {chars "a.b", chars "a.b.c", chars "a.d"}
        = {chars "a.b", chars "a.d"} :=
  ⟨minCover_subset s, minCover_covers, minCover_minimal, by decide⟩

/-- C3 (witness): the covering property at the concrete example set. -/
theorem minimum_covering_spec_witness :
    ∃ c ∈ _find_minimum_covering_modules {chars "a.b", chars "a.b.c", chars "a.d"},
      c = chars "a.b.c" ∨ isDotAncestor c (chars "a.b.c") :=
  (minimum_covering_spec {chars "a.b", chars "a.b.c", chars "a.d"} (by decide)).2.1
    (chars "a.b.c") (by decide)

/-- C4 (counterexample): the message of the claim, which lacks the
`"error: "` prefix that `_module_missing_type_hint_pattern` anchors on,
matches neither import pattern, so `get_3rd_party_modules_missing_type_hints`
raises (`none`) instead of extracting `"requests"`. -/
theorem import_extraction_counterexample :
    get_3rd_party_modules_missing_type_hints
      [⟨chars "x.py", 1, chars "import",
        chars "Skipping analyzing " ++ [quoteS] ++ chars "requests" ++ [quoteS] ++
          chars ": found module but no type hints or library stubs"⟩] = none := by
  decide

/-- C4 (amended): with the `"error: "` marker that parsed mypy messages
retain, the import-coded diagnostic for `'requests'` is matched by the
missing-type-hints pattern and the result set contains `"requests"`; no
unrecognized-diagnostic failure occurs. -/
theorem import_extraction_amended :
    get_3rd_party_modules_missing_type_hints
      [⟨chars "x.py", 1, chars "import",
        chars "error: Skipping analyzing " ++ [quoteS] ++ chars "requests" ++ [quoteS] ++
          chars ": found module but no type hints or library stubs"⟩]
    = some {chars "requests"}
    ∧ chars "requests" ∈ ({chars "requests"} : Finset ModuleName) :=
  ⟨by decide, by decide⟩

/-- C5 (counterexample): a tail containing `[` but no trailing bracketed
code is still split at the `[`: the parsed error code is `"x"`, not the
empty string, and the message is not the whole trimmed tail. -/
theorem diagnostic_parsing_counterexample :
    MypyError.from_mypy_output_line (chars "a.py:1: error: foo [x")
      = some (some ⟨chars "a.py", 1, chars "x", chars "error: foo"⟩)
    ∧ (chars "x" : List Char) ≠ []
    ∧ chars "error: foo" ≠ pyStrip (chars "error: foo [x") :=
  ⟨by decide, by decide, by decide⟩

/-- C5 (amended): parsing `"src/app.py:10: error: Something [misc]"` yields
file path `src/app.py`, line 10, code `misc`, message `error: Something`;
in general a tail ending in a bracketed code `[code]` has that code
extracted and stripped from the message, while a tail containing no `[` at
all parses with the empty error code and the whole trimmed tail as
message. -/
theorem diagnostic_parsing_spec :
    MypyError.from_mypy_output_line (chars "src/app.py:10: error: Something [misc]")
      = some (some ⟨chars "src/app.py", 10, chars "misc", chars "error: Something"⟩)
    ∧ (∀ msg code : List Char, code ≠ [] →
        (∀ c ∈ code, c ≠ lbrackC ∧ c ≠ rbrackC ∧ isWsC c = false) →
        (chars "note:").isPrefixOf (pyStrip (msg ++ lbrackC :: (code ++ [rbrackC]))) = false →
        MypyError.from_mypy_output_line (chars "src/app.py" ++ colonC ::
          (chars "10" ++ colonC :: (msg ++ lbrackC :: (code ++ [rbrackC]))))
        = some (some ⟨chars "src/app.py", 10, code, pyStrip msg⟩))
    ∧ (∀ tail : List Char, lbrackC ∉ tail →
        (chars "note:").isPrefixOf (pyStrip tail) = false →
        MypyError.from_mypy_output_line (chars "src/app.py" ++ colonC ::
          (chars "10" ++ colonC :: tail))
        = some (some ⟨chars "src/app.py", 10, [], pyStrip tail⟩)) :=
  ⟨by decide, from_mypy_output_line_bracket, from_mypy_output_line_no_bracket⟩

/-- C5 (witness): both general branches at concrete inputs. -/
theorem diagnostic_parsing_spec_witness :
    MypyError.from_mypy_output_line (chars "src/app.py" ++ colonC ::
      (chars "10" ++ colonC :: (chars "error: Oops " ++ lbrackC ::
        (chars "misc" ++ [rbrackC]))))
    = some (some ⟨chars "src/app.py", 10, chars "misc", pyStrip (chars "error: Oops ")⟩)
    ∧ MypyError.from_mypy_output_line (chars "src/app.py" ++ colonC ::
        (chars "10" ++ colonC :: chars " error: no code here"))
      = some (some ⟨chars "src/app.py", 10, [], pyStrip (chars " error: no code here")⟩) :=
  ⟨diagnostic_parsing_spec.2.1 (chars "error: Oops ") (chars "misc") (by decide)
      (by decide) (by decide),
   diagnostic_parsing_spec.2.2 (chars " error: no code here") (by decide) (by decide)⟩

/-- C6 (counterexample): `"a..b"` has an empty dotted component, so by the
claim validation must raise, but `validate_module_name` accepts it: the
function never checks interior components. -/
theorem module_validation_counterexample :
    validate_module_name (chars "a..b") = true
    ∧ ¬ claimWellFormedModuleName (chars "a..b") :=
  ⟨by decide, by decide⟩

/-- C6 (amended): `validate_module_name` returns normally exactly for
strings over the allowed character pool (ASCII letters, digits, underscore,
dot) that neither start nor end with a dot; interior empty components (and
the empty string) are accepted. -/
theorem module_validation_amended (m : ModuleName) :
    validate_module_name m = true ↔
      ((∀ c ∈ m, c ∈ expected_chars) ∧ m.head? ≠ some dotC ∧ m.getLast? ≠ some dotC) := by
  rw [validate_module_name]
  simp only [Bool.and_eq_true, Bool.not_eq_true', List.all_eq_true]
  constructor
  · rintro ⟨⟨hall, hpre⟩, hsuf⟩
    refine ⟨fun c hc => ?_, ?_, ?_⟩
    · have h := hall c hc
      simpa using h
    · intro hh
      rw [← singleton_isPrefixOf_iff] at hh
      rw [hh] at hpre
      simp at hpre
    · intro hh
      rw [← singleton_isSuffixOf_iff] at hh
      rw [hh] at hsuf
      simp at hsuf
  · rintro ⟨hall, hh, hl⟩
    refine ⟨⟨fun c hc => by simpa using hall c hc, ?_⟩, ?_⟩
    · by_cases hp : [dotC].isPrefixOf m = true
      · exact absurd ((singleton_isPrefixOf_iff dotC m).mp hp) hh
      · exact Bool.eq_false_iff.mpr hp
    · by_cases hp : [dotC].isSuffixOf m = true
      · exact absurd ((singleton_isSuffixOf_iff dotC m).mp hp) hl
      · exact Bool.eq_false_iff.mpr hp

/-- C6 (witness): the amended characterization at a concrete name. -/
theorem module_validation_amended_witness :
    validate_module_name (chars "pkg.sub_1") = true :=
  (module_validation_amended (chars "pkg.sub_1")).mpr ⟨by decide, by decide, by decide⟩

/-- C7: the children-collapse reduction, applied to its own output (for any
fixed module-introspection collaborator), returns the identical set. -/
theorem collapse_reduction_fixed_point (children : ModuleName → Finset ModuleName)
    (s : Finset ModuleName) (hvalid : ∀ m ∈ s, validate_module_name m = true) :
    _consider_replacing_child_modules_with_parent children
        (_consider_replacing_child_modules_with_parent children s)
      = _consider_replacing_child_modules_with_parent children s :=
  collapse_idem children s

/-- C7 (witness): the fixed point at a concrete collaborator and set. -/
theorem collapse_reduction_fixed_point_witness :
    _consider_replacing_child_modules_with_parent (fun _ => ∅)
        (_consider_replacing_child_modules_with_parent (fun _ => ∅) {chars "alpha"})
      = _consider_replacing_child_modules_with_parent (fun _ => ∅) {chars "alpha"} :=
  collapse_reduction_fixed_point (fun _ => ∅) {chars "alpha"} (by decide)

/-- C8: applying `_find_minimum_covering_modules` twice yields the same
result as applying it once. -/
theorem covering_reduction_idempotent (s : Finset ModuleName) :
    _find_minimum_covering_modules (_find_minimum_covering_modules s)
      = _find_minimum_covering_modules s :=
  minCover_idem s

/-- C9 (counterexample): both extension lists enumerate the same
four-element set literal of `_get_module_for_error`, yet on the diagnostic
for file `a.pyx.py` one iteration order produces a result and the other
makes the Builder raise: CPython's hash-seed-dependent set iteration order
is observable in the Builder's outcome. -/
theorem builder_extension_order_counterexample :
    ([chars ".pyx", chars ".py", chars ".pyo", chars ".pyc"]).toFinset
        = known_python_extensions.toFinset
    ∧ get_1st_party_modules_and_suppressions (fun _ => ∅)
        [chars ".pyx", chars ".py", chars ".pyo", chars ".pyc"]
        [⟨chars "a.pyx.py", 1, chars "no-untyped-call", chars "whatever"⟩] = none
    ∧ (get_1st_party_modules_and_suppressions (fun _ => ∅) known_python_extensions
        [⟨chars "a.pyx.py", 1, chars "no-untyped-call", chars "whatever"⟩]).isSome
        = true :=
  ⟨by decide, rfl, rfl⟩

/-- C9 (amended): for a fixed iteration order of the known-extensions set
(fixed within one process), the Builder is a deterministic function of its
input — equal diagnostic lists produce identical mappings — and every
per-module settings list in a successful result is sorted by the
lexicographic setting order. -/
theorem builder_determinism_and_sorted_output
    (children : ModuleName → Finset ModuleName) (extOrder : List (List Char))
    (l1 l2 : List MypyError) (h : l1 = l2) :
    get_1st_party_modules_and_suppressions children extOrder l1
      = get_1st_party_modules_and_suppressions children extOrder l2
    ∧ ∀ g, get_1st_party_modules_and_suppressions children extOrder l1 = some g →
        ∀ m, (g m).Pairwise (fun a b => settingLe a b = true) :=
  ⟨by rw [h], fun g hg m => builder_result_sorted hg m⟩

/-- C9 (witness): determinism at a concrete run. -/
theorem builder_determinism_witness :
    get_1st_party_modules_and_suppressions (fun _ => ∅) known_python_extensions
        [⟨chars "m.py", 1, chars "no-untyped-call", chars "zzz"⟩]
      = get_1st_party_modules_and_suppressions (fun _ => ∅) known_python_extensions
        [⟨chars "m.py", 1, chars "no-untyped-call", chars "zzz"⟩] :=
  (builder_determinism_and_sorted_output (fun _ => ∅) known_python_extensions
    [⟨chars "m.py", 1, chars "no-untyped-call", chars "zzz"⟩]
    [⟨chars "m.py", 1, chars "no-untyped-call", chars "zzz"⟩] rfl).1

/-- C10: every dot-free (top-level) module name in the input survives the
children-collapse reduction, for every module-introspection collaborator. -/
theorem collapse_keeps_top_level (children : ModuleName → Finset ModuleName)
    (s : Finset ModuleName) (m : ModuleName) (hm : m ∈ s) (hd : ¬ hasDotM m) :
    m ∈ _consider_replacing_child_modules_with_parent children s :=
  mem_collapse_of_parentless hm hd

set_option maxHeartbeats 2000000 in
/-- C10 (witness): a concrete top-level name surviving collapse. -/
theorem collapse_keeps_top_level_witness :
    chars "alpha" ∈ _consider_replacing_child_modules_with_parent (fun _ => ∅)
      {chars "alpha", chars "beta.gamma"} :=
  collapse_keeps_top_level (fun _ => ∅) {chars "alpha", chars "beta.gamma"}
    (chars "alpha") (by decide) (by decide)
